import Mathlib

/-!
Verification of the de Bruijn graph construction core of this repository
(src/fasta.py). Sequences are modelled as `List Char`; the networkx
`DiGraph`, as used here (string nodes, no edge attributes ever set), is
modelled as a pair of insertion-ordered duplicate-free lists of nodes and
of directed edges.
-/

namespace Fasta

/-- The graph state of `nx.DiGraph` as used by src/fasta.py: nodes in
insertion order and directed edges in insertion order. No edge attributes
are ever set by the code, so none are modelled. -/
structure Graph where
  nodes : List (List Char)
  edges : List (List Char × List Char)
deriving DecidableEq

/-- `nx.DiGraph()`: the fresh empty graph. -/
def emptyGraph : Graph := ⟨[], []⟩

/-- Node insertion as performed inside `DiGraph.add_edge`: append the node
if absent, otherwise leave the graph unchanged. -/
def Graph.addNode (G : Graph) (u : List Char) : Graph :=
  if u ∈ G.nodes then G else ⟨G.nodes ++ [u], G.edges⟩

/-- `DiGraph.add_edge(u, v)` with no attributes: ensure `u` then `v` exist
as nodes, then add the edge `(u, v)` if absent; a repeated insertion
leaves the structure unchanged. -/
def Graph.add_edge (G : Graph) (u v : List Char) : Graph :=
  if (u, v) ∈ ((G.addNode u).addNode v).edges then (G.addNode u).addNode v
  else
    ⟨((G.addNode u).addNode v).nodes,
     ((G.addNode u).addNode v).edges ++ [(u, v)]⟩

/-- The k-mer list extracted by the loop of `add_sequence_to_graph`
(src/fasta.py lines 43-44): `seq[i:i+k]` for `i in range(len(seq)-k+1)`.
Python's `range` of a non-positive bound is empty, which truncated `Nat`
subtraction `seq.length + 1 - k` reproduces exactly. -/
def kmers (seq : List Char) (k : Nat) : List (List Char) :=
  (List.range (seq.length + 1 - k)).map (fun i => (seq.drop i).take k)

/-- `add_sequence_to_graph(seq, G, k)` (src/fasta.py lines 34-47): for each
window position take `kmer = seq[i:i+k]` and insert the edge
`kmer[:-1] -> kmer[1:]`. -/
def add_sequence_to_graph (seq : List Char) (G : Graph) (k : Nat) : Graph :=
  (List.range (seq.length + 1 - k)).foldl
    (fun g i =>
      g.add_edge ((seq.drop i).take k).dropLast (((seq.drop i).take k).drop 1))
    G

/-- The edge (prefix, suffix) pairs generated, in order, by one call of
`add_sequence_to_graph`. -/
def edgePairs (seq : List Char) (k : Nat) : List (List Char × List Char) :=
  (kmers seq k).map (fun km => (km.dropLast, km.drop 1))

/-- Every edge endpoint is a node of the owning graph. -/
def Wellformed (G : Graph) : Prop :=
  ∀ e ∈ G.edges, e.1 ∈ G.nodes ∧ e.2 ∈ G.nodes

instance (G : Graph) : Decidable (Wellformed G) := by
  unfold Wellformed; infer_instance

/-- The subgraph-selection step of `visualize_graph` (src/fasta.py lines
57-62): if the graph has more than `n` nodes, take the induced subgraph on
the first `n` nodes in iteration (= insertion) order, else the whole
graph. -/
def sample (G : Graph) (n : Nat) : Graph :=
  if n < G.nodes.length then
    ⟨G.nodes.take n,
     G.edges.filter fun e =>
       decide (e.1 ∈ G.nodes.take n ∧ e.2 ∈ G.nodes.take n)⟩
  else G

/-- A run of the construction phase: fold `add_sequence_to_graph` over a
list of (sequence, k) ingest operations starting from the empty graph. -/
def ingestAll (ops : List (List Char × Nat)) : Graph :=
  ops.foldl (fun g p => add_sequence_to_graph p.1 g p.2) emptyGraph

/-- Folding `add_edge` over an explicit list of (prefix, suffix) pairs;
`add_sequence_to_graph` is this fold over `edgePairs`. -/
def foldPairs (l : List (List Char × List Char)) (G : Graph) : Graph :=
  l.foldl (fun g p => g.add_edge p.1 p.2) G

/-- The graph built from the spec's concrete scenario, "ACGTACGT" with
k = 3; used as a concrete sampling input. -/
def demoGraph : Graph :=
  add_sequence_to_graph ['A', 'C', 'G', 'T', 'A', 'C', 'G', 'T'] emptyGraph 3

/-- Modelled from the spec: the repository's only persistence code is
`pickle.dump(G, f)` in `main` (src/fasta.py lines 78-80) and no
deserializer exists in the repository, so the Persistence Codec is
modelled from spec section 4.4: the Graph Store it serializes carries a
multiplicity on each edge. -/
structure MGraph where
  nodes : List (List Char)
  edges : List ((List Char × List Char) × Nat)
deriving DecidableEq

/-- Every edge endpoint of an `MGraph` is a node of the owning graph. -/
def MWellformed (G : MGraph) : Prop :=
  ∀ e ∈ G.edges, e.1.1 ∈ G.nodes ∧ e.1.2 ∈ G.nodes

instance (G : MGraph) : Decidable (MWellformed G) := by
  unfold MWellformed; infer_instance

/-- Modelled from the spec: one node-table record — the node's length
followed by its symbols' code points. -/
def encodeNode (u : List Char) : List Nat :=
  u.length :: u.map Char.toNat

/-- Modelled from the spec: the index of a node in the node table (first
occurrence; table length if absent). -/
def idxOf (x : List Char) : List (List Char) → Nat
  | [] => 0
  | y :: t => if x = y then 0 else idxOf x t + 1

/-- Modelled from the spec: one edge-table record — source node index,
target node index, multiplicity. -/
def encodeEdge (nodes : List (List Char)) (e : (List Char × List Char) × Nat) :
    List Nat :=
  [idxOf e.1.1 nodes, idxOf e.1.2 nodes, e.2]

/-- Modelled from the spec (section 4.4): `serialize(graph)` emits a header
(format version, node count, edge count), then the node table, then the
edge table. -/
def serialize (G : MGraph) : List Nat :=
  1 :: G.nodes.length :: G.edges.length ::
    (G.nodes.flatMap encodeNode ++ G.edges.flatMap (encodeEdge G.nodes))

/-- Modelled from the spec: read back one node-table record, failing on a
truncated stream. -/
def readNode : List Nat → Option (List Char × List Nat)
  | [] => none
  | len :: rest =>
    if len ≤ rest.length then
      some ((rest.take len).map Char.ofNat, rest.drop len)
    else none

/-- Modelled from the spec: read back exactly `n` node-table records. -/
def readNodes : Nat → List Nat → Option (List (List Char) × List Nat)
  | 0, rest => some ([], rest)
  | n + 1, rest =>
    (readNode rest).bind fun p =>
      (readNodes n p.2).bind fun q => some (p.1 :: q.1, q.2)

/-- Modelled from the spec: read back one edge-table record, failing with a
CorruptData outcome (`none`) when a node index is out of the node table's
bounds or the stream is truncated. -/
def readEdge (nodes : List (List Char)) :
    List Nat → Option (((List Char × List Char) × Nat) × List Nat)
  | a :: b :: m :: rest =>
    match nodes.get? a, nodes.get? b with
    | some u, some v => some (((u, v), m), rest)
    | _, _ => none
  | _ => none

/-- Modelled from the spec: read back exactly `n` edge-table records. -/
def readEdges (nodes : List (List Char)) :
    Nat → List Nat → Option (List ((List Char × List Char) × Nat) × List Nat)
  | 0, rest => some ([], rest)
  | n + 1, rest =>
    (readEdge nodes rest).bind fun p =>
      (readEdges nodes n p.2).bind fun q => some (p.1 :: q.1, q.2)

/-- Modelled from the spec: `deserialize(byte stream)` checks the version,
reads the declared number of node and edge records, and fails (CorruptData)
on any count mismatch, trailing data, or out-of-bounds node index. -/
def deserialize (data : List Nat) : Option MGraph :=
  match data with
  | v :: nc :: ec :: rest =>
    if v = 1 then
      (readNodes nc rest).bind fun p =>
        (readEdges p.1 ec p.2).bind fun q =>
          if q.2 = [] then some ⟨p.1, q.1⟩ else none
    else none
  | _ => none

theorem addNode_edges (G : Graph) (u : List Char) :
    (G.addNode u).edges = G.edges := by
  unfold Graph.addNode; split <;> rfl

theorem addNode_of_mem {G : Graph} {u : List Char} (h : u ∈ G.nodes) :
    G.addNode u = G := by
  unfold Graph.addNode; exact if_pos h

theorem mem_nodes_addNode_iff {G : Graph} {u a : List Char} :
    a ∈ (G.addNode u).nodes ↔ a ∈ G.nodes ∨ a = u := by
  unfold Graph.addNode; split
  case isTrue h =>
    exact ⟨Or.inl, fun hor => hor.elim id (fun ha => ha ▸ h)⟩
  case isFalse h => simp [List.mem_append]

theorem mem_edges_add_edge_iff {G : Graph} {u v : List Char}
    {e : List Char × List Char} :
    e ∈ (G.add_edge u v).edges ↔ e ∈ G.edges ∨ e = (u, v) := by
  unfold Graph.add_edge
  simp only [addNode_edges]
  split
  case isTrue h =>
    simp only [addNode_edges]
    exact ⟨Or.inl, fun hor => hor.elim id (fun he => he ▸ h)⟩
  case isFalse h => simp [addNode_edges, List.mem_append]

theorem foldPairs_cons (p : List Char × List Char)
    (t : List (List Char × List Char)) (G : Graph) :
    foldPairs (p :: t) G = foldPairs t (G.add_edge p.1 p.2) := rfl

theorem mem_nodes_add_edge_iff {G : Graph} {u v a : List Char} :
    a ∈ (G.add_edge u v).nodes ↔ a ∈ G.nodes ∨ a = u ∨ a = v := by
  unfold Graph.add_edge
  split <;> simp [mem_nodes_addNode_iff, or_assoc]

theorem wf_emptyGraph : Wellformed emptyGraph := by
  intro e he; cases he

theorem wf_add_edge {G : Graph} {u v : List Char} (h : Wellformed G) :
    Wellformed (G.add_edge u v) := by
  intro e he
  rw [mem_edges_add_edge_iff] at he
  rcases he with he | rfl
  · exact ⟨mem_nodes_add_edge_iff.2 (Or.inl (h e he).1),
      mem_nodes_add_edge_iff.2 (Or.inl (h e he).2)⟩
  · exact ⟨mem_nodes_add_edge_iff.2 (Or.inr (Or.inl rfl)),
      mem_nodes_add_edge_iff.2 (Or.inr (Or.inr rfl))⟩

theorem add_edge_of_mem {G : Graph} {u v : List Char} (h : Wellformed G)
    (he : (u, v) ∈ G.edges) : G.add_edge u v = G := by
  have hu : u ∈ G.nodes := (h _ he).1
  have hv : v ∈ G.nodes := (h _ he).2
  unfold Graph.add_edge
  rw [addNode_of_mem hu, addNode_of_mem hv, if_pos he]

theorem add_sequence_eq_foldPairs (s : List Char) (G : Graph) (k : Nat) :
    add_sequence_to_graph s G k = foldPairs (edgePairs s k) G := by
  unfold add_sequence_to_graph foldPairs edgePairs kmers
  rw [List.foldl_map, List.foldl_map]

theorem mem_edges_foldPairs_of_mem {l : List (List Char × List Char)}
    {G : Graph} {e : List Char × List Char} (h : e ∈ G.edges) :
    e ∈ (foldPairs l G).edges := by
  induction l generalizing G with
  | nil => exact h
  | cons p t ih =>
    rw [foldPairs_cons]
    exact ih (mem_edges_add_edge_iff.2 (Or.inl h))

theorem mem_edges_foldPairs_of_mem_list {l : List (List Char × List Char)}
    {G : Graph} {p : List Char × List Char} (h : p ∈ l) :
    p ∈ (foldPairs l G).edges := by
  induction l generalizing G with
  | nil => cases h
  | cons q t ih =>
    rw [foldPairs_cons]
    rcases List.mem_cons.1 h with rfl | h
    · exact mem_edges_foldPairs_of_mem
        (mem_edges_add_edge_iff.2 (Or.inr rfl))
    · exact ih h

theorem mem_edges_foldPairs_elim {l : List (List Char × List Char)}
    {G : Graph} {e : List Char × List Char}
    (h : e ∈ (foldPairs l G).edges) : e ∈ G.edges ∨ e ∈ l := by
  induction l generalizing G with
  | nil => exact Or.inl h
  | cons p t ih =>
    rw [foldPairs_cons] at h
    rcases ih h with h1 | h1
    · rcases mem_edges_add_edge_iff.1 h1 with h2 | rfl
      · exact Or.inl h2
      · exact Or.inr (List.mem_cons_self _ _)
    · exact Or.inr (List.mem_cons_of_mem _ h1)

theorem mem_nodes_foldPairs_elim {l : List (List Char × List Char)}
    {G : Graph} {a : List Char}
    (h : a ∈ (foldPairs l G).nodes) :
    a ∈ G.nodes ∨ ∃ p ∈ l, a = p.1 ∨ a = p.2 := by
  induction l generalizing G with
  | nil => exact Or.inl h
  | cons p t ih =>
    rw [foldPairs_cons] at h
    rcases ih h with h1 | ⟨q, hq, hqa⟩
    · rcases mem_nodes_add_edge_iff.1 h1 with h2 | h2 | h2
      · exact Or.inl h2
      · exact Or.inr ⟨p, List.mem_cons_self _ _, Or.inl h2⟩
      · exact Or.inr ⟨p, List.mem_cons_self _ _, Or.inr h2⟩
    · exact Or.inr ⟨q, List.mem_cons_of_mem _ hq, hqa⟩

theorem wf_foldPairs {l : List (List Char × List Char)} {G : Graph}
    (h : Wellformed G) : Wellformed (foldPairs l G) := by
  induction l generalizing G with
  | nil => exact h
  | cons p t ih =>
    rw [foldPairs_cons]
    exact ih (wf_add_edge h)

theorem foldPairs_of_subset {l : List (List Char × List Char)} {G : Graph}
    (hwf : Wellformed G) (h : ∀ p ∈ l, p ∈ G.edges) : foldPairs l G = G := by
  induction l with
  | nil => rfl
  | cons p t ih =>
    have hp : G.add_edge p.1 p.2 = G :=
      add_edge_of_mem hwf (h p (List.mem_cons_self _ _))
    rw [foldPairs_cons, hp]
    exact ih (fun q hq => h q (List.mem_cons_of_mem _ hq))

theorem wf_add_sequence {s : List Char} {G : Graph} {k : Nat}
    (h : Wellformed G) : Wellformed (add_sequence_to_graph s G k) := by
  rw [add_sequence_eq_foldPairs]; exact wf_foldPairs h

theorem readNode_encode (u : List Char) (r : List Nat) :
    readNode (encodeNode u ++ r) = some (u, r) := by
  have hsh : encodeNode u ++ r = u.length :: (u.map Char.toNat ++ r) := rfl
  rw [hsh]
  unfold readNode
  dsimp only
  rw [if_pos (by simp)]
  have h1 : (u.map Char.toNat ++ r).take u.length = u.map Char.toNat :=
    List.take_left' (by simp)
  have h2 : (u.map Char.toNat ++ r).drop u.length = r :=
    List.drop_left' (by simp)
  rw [h1, h2, List.map_map]
  simp [Function.comp_def]

theorem readNodes_encode (ns : List (List Char)) (r : List Nat) :
    readNodes ns.length (ns.flatMap encodeNode ++ r) = some (ns, r) := by
  induction ns with
  | nil => rfl
  | cons u t ih =>
    have hsh : (u :: t).flatMap encodeNode ++ r
        = encodeNode u ++ (t.flatMap encodeNode ++ r) := by
      simp [List.append_assoc]
    rw [hsh]
    show readNodes (t.length + 1) _ = _
    unfold readNodes
    rw [readNode_encode, Option.some_bind, ih, Option.some_bind]

theorem get?_idxOf {x : List Char} :
    ∀ {ns : List (List Char)}, x ∈ ns → ns.get? (idxOf x ns) = some x := by
  intro ns
  induction ns with
  | nil => intro h; cases h
  | cons y t ih =>
    intro h
    by_cases hxy : x = y
    · subst hxy
      unfold idxOf
      rw [if_pos rfl]
      rfl
    · have hxt : x ∈ t := by
        rcases List.mem_cons.1 h with h1 | h1
        · exact absurd h1 hxy
        · exact h1
      unfold idxOf
      rw [if_neg hxy]
      exact ih hxt

theorem readEdge_encode (ns : List (List Char))
    (e : (List Char × List Char) × Nat) (r : List Nat)
    (h1 : e.1.1 ∈ ns) (h2 : e.1.2 ∈ ns) :
    readEdge ns (encodeEdge ns e ++ r) = some (e, r) := by
  obtain ⟨⟨u, v⟩, m⟩ := e
  have hsh : encodeEdge ns ((u, v), m) ++ r
      = idxOf u ns :: idxOf v ns :: m :: r := rfl
  rw [hsh]
  unfold readEdge
  dsimp only
  dsimp only at h1 h2
  rw [get?_idxOf h1, get?_idxOf h2]

theorem readEdges_encode (ns : List (List Char))
    (es : List ((List Char × List Char) × Nat)) (r : List Nat)
    (h : ∀ e ∈ es, e.1.1 ∈ ns ∧ e.1.2 ∈ ns) :
    readEdges ns es.length (es.flatMap (encodeEdge ns) ++ r) = some (es, r) := by
  induction es with
  | nil => rfl
  | cons e t ih =>
    have hsh : (e :: t).flatMap (encodeEdge ns) ++ r
        = encodeEdge ns e ++ (t.flatMap (encodeEdge ns) ++ r) := by
      simp [List.append_assoc]
    rw [hsh]
    show readEdges ns (t.length + 1) _ = _
    unfold readEdges
    rw [readEdge_encode ns e _ (h e (List.mem_cons_self _ _)).1
        (h e (List.mem_cons_self _ _)).2,
      Option.some_bind,
      ih (fun q hq => h q (List.mem_cons_of_mem _ hq)), Option.some_bind]

/-- C2: deserializing the byte stream produced by serializing a graph G
yields a graph identical to G — same node set, edge set and per-edge
multiplicities (here: the very same graph value). -/
theorem serialize_deserialize_round_trip (G : MGraph) (h : MWellformed G) :
    deserialize (serialize G) = some G := by
  obtain ⟨ns, es⟩ := G
  unfold serialize deserialize
  dsimp only
  rw [if_pos rfl, readNodes_encode, Option.some_bind]
  have he : readEdges ns es.length (es.flatMap (encodeEdge ns)) = some (es, []) := by
    have := readEdges_encode ns es [] h
    rwa [List.append_nil] at this
  rw [he, Option.some_bind, if_pos rfl]

/-- Witness for C2 at a concrete two-node, one-edge graph with
multiplicity 2. -/
theorem serialize_deserialize_round_trip_witness :
    MWellformed ⟨[['A'], ['C']], [((['A'], ['C']), 2)]⟩
    ∧ deserialize (serialize ⟨[['A'], ['C']], [((['A'], ['C']), 2)]⟩)
        = some ⟨[['A'], ['C']], [((['A'], ['C']), 2)]⟩ :=
  ⟨by decide, serialize_deserialize_round_trip _ (by decide)⟩

/-- C8: after any sequence of ingest operations starting from the empty
graph, every edge's two endpoints are present as nodes of the same
graph. -/
theorem reachable_graphs_wellformed (ops : List (List Char × Nat)) :
    Wellformed (ingestAll ops) := by
  unfold ingestAll
  have hgen : ∀ (l : List (List Char × Nat)) (G : Graph), Wellformed G →
      Wellformed (l.foldl (fun g p => add_sequence_to_graph p.1 g p.2) G) := by
    intro l
    induction l with
    | nil => intro G h; exact h
    | cons p t ih => intro G h; exact ih _ (wf_add_sequence h)
  exact hgen ops emptyGraph wf_emptyGraph

/-- C9: ingesting a sequence twice into a fresh graph yields the very same
graph value as ingesting it once — a repeated edge insertion for an
existing (prefix, suffix) pair leaves the graph entirely unchanged, and no
multiplicity counter is stored. -/
theorem ingest_idempotent (s : List Char) (k : Nat) (h : 2 ≤ k) :
    add_sequence_to_graph s (add_sequence_to_graph s emptyGraph k) k
      = add_sequence_to_graph s emptyGraph k := by
  have hwf : Wellformed (add_sequence_to_graph s emptyGraph k) :=
    wf_add_sequence wf_emptyGraph
  rw [add_sequence_eq_foldPairs s (add_sequence_to_graph s emptyGraph k) k]
  apply foldPairs_of_subset hwf
  intro p hp
  rw [add_sequence_eq_foldPairs]
  exact mem_edges_foldPairs_of_mem_list hp

/-- Witness for C9 at sequence "AA", k = 2. -/
theorem ingest_idempotent_witness :
    2 ≤ 2
    ∧ add_sequence_to_graph ['A', 'A']
        (add_sequence_to_graph ['A', 'A'] emptyGraph 2) 2
      = add_sequence_to_graph ['A', 'A'] emptyGraph 2 :=
  ⟨by decide, ingest_idempotent ['A', 'A'] 2 (by decide)⟩

/-- C1 (evaluation at the failing input): the code stores no multiplicity
counter at all — ingesting "AA" twice with k = 2 leaves the graph exactly
as after one ingest, with the edge A→A recorded once and carrying no
count, instead of doubling a multiplicity. -/
theorem double_ingest_stores_no_multiplicity :
    add_sequence_to_graph ['A', 'A']
        (add_sequence_to_graph ['A', 'A'] emptyGraph 2) 2
      = add_sequence_to_graph ['A', 'A'] emptyGraph 2
    ∧ (add_sequence_to_graph ['A', 'A'] emptyGraph 2).edges
      = [(['A'], ['A'])] := by decide

/-- C7 (evaluation at the failing input): on "ACGTACGT" with k = 3 the code
produces exactly the six expected k-mers, the four expected nodes in
insertion order, and the four expected distinct edges — but the repeated
k-mers ACG and CGT collapse onto bare edges with no multiplicity stored,
so the multiplicities 2, 2, 1, 1 required by the claim do not exist in the
resulting graph. -/
theorem concrete_scenario_acgtacgt :
    kmers ['A', 'C', 'G', 'T', 'A', 'C', 'G', 'T'] 3
      = [['A', 'C', 'G'], ['C', 'G', 'T'], ['G', 'T', 'A'],
         ['T', 'A', 'C'], ['A', 'C', 'G'], ['C', 'G', 'T']]
    ∧ (add_sequence_to_graph ['A', 'C', 'G', 'T', 'A', 'C', 'G', 'T']
        emptyGraph 3).nodes
      = [['A', 'C'], ['C', 'G'], ['G', 'T'], ['T', 'A']]
    ∧ (add_sequence_to_graph ['A', 'C', 'G', 'T', 'A', 'C', 'G', 'T']
        emptyGraph 3).edges
      = [(['A', 'C'], ['C', 'G']), (['C', 'G'], ['G', 'T']),
         (['G', 'T'], ['T', 'A']), (['T', 'A'], ['A', 'C'])] := by decide

theorem take_one_dropLast (xs : List Char) : (xs.take 1).dropLast = [] := by
  cases xs <;> rfl

theorem take_one_drop_one (xs : List Char) : (xs.take 1).drop 1 = [] := by
  cases xs <;> rfl

/-- C10: with k = 1 and a non-empty sequence, ingestion neither fails nor
produces nothing — each length-1 k-mer has the empty string as both prefix
and suffix, so the graph gains exactly one node (the empty string) with a
single self-loop edge. -/
theorem k_one_self_loop (s : List Char) (h : s ≠ []) :
    add_sequence_to_graph s emptyGraph 1 = ⟨[[]], [([], [])]⟩ := by
  unfold add_sequence_to_graph
  simp only [take_one_dropLast, take_one_drop_one, Nat.add_sub_cancel]
  obtain ⟨a, t, rfl⟩ : ∃ a t, s = a :: t := by
    cases s with
    | nil => exact absurd rfl h
    | cons a t => exact ⟨a, t, rfl⟩
  have hconst : ∀ (l : List Nat),
      l.foldl (fun g _ => Graph.add_edge g [] []) (⟨[[]], [([], [])]⟩ : Graph)
        = ⟨[[]], [([], [])]⟩ := by
    intro l
    induction l with
    | nil => rfl
    | cons b t2 ih =>
      rw [List.foldl_cons,
        (by decide : Graph.add_edge ⟨[[]], [([], [])]⟩ [] [] = ⟨[[]], [([], [])]⟩)]
      exact ih
  rw [show (a :: t).length = t.length + 1 from rfl, List.range_succ_eq_map,
    List.foldl_cons,
    (by decide : Graph.add_edge emptyGraph [] [] = ⟨[[]], [([], [])]⟩)]
  exact hconst _

/-- Witness for C10 at the one-symbol sequence "A". -/
theorem k_one_self_loop_witness :
    (['A'] : List Char) ≠ []
    ∧ add_sequence_to_graph ['A'] emptyGraph 1 = ⟨[[]], [([], [])]⟩ :=
  ⟨by decide, k_one_self_loop ['A'] (by decide)⟩

/-- C3: with k ≥ 2 the extraction loop yields exactly max(0, len(s)-k+1)
k-mers; the i-th is the contiguous window `s[i : i+k]`, in left-to-right
order; a sequence shorter than k yields zero k-mers and its ingestion
leaves any graph unchanged, raising no error. -/
theorem window_count_law (s : List Char) (k : Nat) (h : 2 ≤ k) :
    ((kmers s k).length : ℤ) = max 0 ((s.length : ℤ) - k + 1)
    ∧ (∀ (i : Nat), i < (kmers s k).length →
        (kmers s k).get? i = some ((s.drop i).take k) ∧ i + k ≤ s.length)
    ∧ (s.length < k → kmers s k = [] ∧ ∀ G, add_sequence_to_graph s G k = G) := by
  have hlen : (kmers s k).length = s.length + 1 - k := by
    simp [kmers]
  refine ⟨?_, ?_, ?_⟩
  · rw [hlen]; omega
  · intro i hi
    rw [hlen] at hi
    constructor
    · unfold kmers
      rw [List.get?_eq_getElem?, List.getElem?_map,
        List.getElem?_range (by omega), Option.map_some']
    · omega
  · intro hk
    have h0 : s.length + 1 - k = 0 := by omega
    refine ⟨?_, ?_⟩
    · unfold kmers; rw [h0]; rfl
    · intro G; unfold add_sequence_to_graph; rw [h0]; rfl

/-- Witness for C3 at sequence "ACG", k = 2. -/
theorem window_count_law_witness :
    2 ≤ 2
    ∧ (((kmers ['A', 'C', 'G'] 2).length : ℤ)
          = max 0 (((['A', 'C', 'G'] : List Char).length : ℤ) - 2 + 1)
      ∧ (∀ (i : Nat), i < (kmers ['A', 'C', 'G'] 2).length →
          (kmers ['A', 'C', 'G'] 2).get? i
              = some (((['A', 'C', 'G'] : List Char).drop i).take 2)
            ∧ i + 2 ≤ (['A', 'C', 'G'] : List Char).length)
      ∧ ((['A', 'C', 'G'] : List Char).length < 2 →
          kmers ['A', 'C', 'G'] 2 = []
            ∧ ∀ G, add_sequence_to_graph ['A', 'C', 'G'] G 2 = G)) :=
  ⟨by decide, window_count_law ['A', 'C', 'G'] 2 (by decide)⟩

theorem take_drop_sub (s : List Char) (i m : Nat) :
    ∃ l r, l ++ (s.drop i).take m ++ r = s :=
  ⟨s.take i, (s.drop i).drop m, by
    rw [List.append_assoc, List.take_append_drop, List.take_append_drop]⟩

/-- C4: every edge produced by ingesting a sequence s with window k ≥ 2
into a fresh graph comes from some k-mer of s: its source is the k-mer
minus its last symbol, its target the k-mer minus its first symbol, both
endpoints are length-(k-1) substrings of s, and the source plus the
k-mer's last symbol reproduces the k-mer exactly. -/
theorem edge_endpoint_law (s : List Char) (k : Nat) (hk : 2 ≤ k)
    (u v : List Char)
    (he : (u, v) ∈ (add_sequence_to_graph s emptyGraph k).edges) :
    ∃ i, i + k ≤ s.length
      ∧ u = ((s.drop i).take k).dropLast
      ∧ v = ((s.drop i).take k).drop 1
      ∧ u.length = k - 1 ∧ v.length = k - 1
      ∧ (∃ l r, l ++ u ++ r = s) ∧ (∃ l r, l ++ v ++ r = s)
      ∧ ∃ c, ((s.drop i).take k).getLast? = some c
          ∧ u ++ [c] = (s.drop i).take k := by
  rw [add_sequence_eq_foldPairs] at he
  rcases mem_edges_foldPairs_elim he with h0 | h0
  · exact absurd h0 (by simp [emptyGraph])
  · unfold edgePairs at h0
    rcases List.mem_map.1 h0 with ⟨km, hkm, hpair⟩
    unfold kmers at hkm
    rcases List.mem_map.1 hkm with ⟨i, hi, rfl⟩
    have hi2 : i < s.length + 1 - k := List.mem_range.1 hi
    have hik : i + k ≤ s.length := by omega
    have hkmlen : ((s.drop i).take k).length = k := by
      rw [List.length_take, List.length_drop]; omega
    injection hpair with hu hv
    refine ⟨i, hik, hu.symm, hv.symm, ?_, ?_, ?_, ?_, ?_⟩
    · rw [← hu, List.length_dropLast, hkmlen]
    · rw [← hv, List.length_drop, hkmlen]
    · rw [← hu, List.dropLast_eq_take, List.take_take]
      exact take_drop_sub s i _
    · rw [← hv, List.drop_take, List.drop_drop]
      exact take_drop_sub s (i + 1) _
    · have hne : (s.drop i).take k ≠ [] := by
        intro hnil
        rw [hnil] at hkmlen
        simp at hkmlen
        omega
      refine ⟨((s.drop i).take k).getLast hne,
        List.getLast?_eq_getLast_of_ne_nil hne, ?_⟩
      rw [← hu]
      exact List.dropLast_append_getLast hne

/-- Witness for C4: edge A→C from ingesting "AC" with k = 2. -/
theorem edge_endpoint_law_witness :
    2 ≤ 2
    ∧ ((['A'], ['C'])
        ∈ (add_sequence_to_graph ['A', 'C'] emptyGraph 2).edges)
    ∧ ∃ i, i + 2 ≤ (['A', 'C'] : List Char).length
      ∧ (['A'] : List Char)
          = (((['A', 'C'] : List Char).drop i).take 2).dropLast
      ∧ (['C'] : List Char)
          = (((['A', 'C'] : List Char).drop i).take 2).drop 1
      ∧ (['A'] : List Char).length = 2 - 1
      ∧ (['C'] : List Char).length = 2 - 1
      ∧ (∃ l r, l ++ ['A'] ++ r = (['A', 'C'] : List Char))
      ∧ (∃ l r, l ++ ['C'] ++ r = (['A', 'C'] : List Char))
      ∧ ∃ c, ((((['A', 'C'] : List Char).drop i).take 2)).getLast? = some c
          ∧ ['A'] ++ [c] = (((['A', 'C'] : List Char).drop i).take 2) :=
  ⟨by decide, by decide,
    edge_endpoint_law ['A', 'C'] 2 (by decide) ['A'] ['C'] (by decide)⟩

/-- C5: the subgraph selection of `visualize_graph` takes the first n nodes
in iteration order; its node count is min(n, node count), its edge set is
exactly the edges of G with both endpoints among those first n nodes,
n ≥ node count returns the full graph, and n = 0 yields an empty graph. -/
theorem sample_law (G : Graph) (n : Nat) (hwf : Wellformed G) :
    (sample G n).nodes = G.nodes.take n
    ∧ (sample G n).nodes.length = min n G.nodes.length
    ∧ (∀ e, e ∈ (sample G n).edges ↔
        e ∈ G.edges ∧ e.1 ∈ G.nodes.take n ∧ e.2 ∈ G.nodes.take n)
    ∧ (G.nodes.length ≤ n → sample G n = G)
    ∧ (sample G 0).nodes = [] ∧ (sample G 0).edges = [] := by
  have hnodes : (sample G n).nodes = G.nodes.take n := by
    unfold sample
    split
    · rfl
    · rw [List.take_of_length_le (by omega)]
  refine ⟨hnodes, ?_, ?_, ?_, ?_, ?_⟩
  · rw [hnodes, List.length_take]
  · intro e
    unfold sample
    split
    case isTrue hlt =>
      dsimp only
      rw [List.mem_filter]
      simp only [decide_eq_true_eq]
    case isFalse hge =>
      have hta : G.nodes.take n = G.nodes := List.take_of_length_le (by omega)
      rw [hta]
      exact ⟨fun he => ⟨he, (hwf e he).1, (hwf e he).2⟩, fun hh => hh.1⟩
  · intro hle
    unfold sample
    rw [if_neg (by omega)]
  · unfold sample
    split
    · simp
    case isFalse hge => exact List.length_eq_zero.1 (by omega)
  · unfold sample
    split
    case isTrue hlt => simp
    case isFalse hge =>
      have hnil : G.nodes = [] := List.length_eq_zero.1 (by omega)
      apply List.eq_nil_iff_forall_not_mem.2
      intro e he
      have h1 := (hwf e he).1
      rw [hnil] at h1
      cases h1

/-- Witness for C5 on the "ACGTACGT"/k=3 graph with n = 2. -/
theorem sample_law_witness :
    Wellformed demoGraph
    ∧ ((sample demoGraph 2).nodes = demoGraph.nodes.take 2
      ∧ (sample demoGraph 2).nodes.length = min 2 demoGraph.nodes.length
      ∧ (∀ e, e ∈ (sample demoGraph 2).edges ↔
          e ∈ demoGraph.edges ∧ e.1 ∈ demoGraph.nodes.take 2
            ∧ e.2 ∈ demoGraph.nodes.take 2)
      ∧ (demoGraph.nodes.length ≤ 2 → sample demoGraph 2 = demoGraph)
      ∧ (sample demoGraph 0).nodes = [] ∧ (sample demoGraph 0).edges = []) :=
  ⟨by decide, sample_law demoGraph 2 (by decide)⟩

/-- C6 counterexample: the code performs no validation of k at all — with
k = 1 (< 2) and the non-nucleotide sequence "XY", ingestion does not fail
before processing: it mutates the fresh graph, producing an empty-string
node with a self-loop. -/
theorem k_validation_counterexample :
    add_sequence_to_graph ['X', 'Y'] emptyGraph 1 = ⟨[[]], [([], [])]⟩
    ∧ add_sequence_to_graph ['X', 'Y'] emptyGraph 1 ≠ emptyGraph := by decide

/-- C6 amended: `add_sequence_to_graph` validates nothing — for every k,
including k < 2, ingestion proceeds without error, and no alphabet check
is made: every node it creates is a verbatim substring of the input
sequence, whatever its symbols. -/
theorem no_validation_pass_through (s : List Char) (G : Graph) (k : Nat)
    (u : List Char) (hu : u ∈ (add_sequence_to_graph s G k).nodes) :
    u ∈ G.nodes ∨ ∃ l r, l ++ u ++ r = s := by
  rw [add_sequence_eq_foldPairs] at hu
  rcases mem_nodes_foldPairs_elim hu with h | ⟨p, hp, hpa⟩
  · exact Or.inl h
  · right
    unfold edgePairs at hp
    rcases List.mem_map.1 hp with ⟨km, hkm, rfl⟩
    unfold kmers at hkm
    rcases List.mem_map.1 hkm with ⟨i, hi, rfl⟩
    dsimp only at hpa
    rcases hpa with rfl | rfl
    · rw [List.dropLast_eq_take, List.take_take]
      exact take_drop_sub s i _
    · rw [List.drop_take, List.drop_drop]
      exact take_drop_sub s (i + 1) _

/-- Witness for C6's amended claim: the empty-string node created by
ingesting "XY" with k = 1 into a fresh graph. -/
theorem no_validation_pass_through_witness :
    (([] : List Char) ∈ (add_sequence_to_graph ['X', 'Y'] emptyGraph 1).nodes)
    ∧ (([] : List Char) ∈ emptyGraph.nodes
        ∨ ∃ l r, l ++ ([] : List Char) ++ r = ['X', 'Y']) :=
  ⟨by decide, no_validation_pass_through ['X', 'Y'] emptyGraph 1 [] (by decide)⟩

end Fasta
